import Mathlib

/-!
# Shallow embedding of `task_01.py`

A verification development for the parallel keyword-search program
`task_01.py`.  The program splits a list of file paths into interleaved
chunks (`file_list[i::num_workers]`), scans each chunk for keywords
(case-insensitive substring search, skipping unreadable files), publishes the
per-chunk dictionaries through a queue, and merges them into one final
dictionary with sorted, deduplicated file lists.

Modelling conventions:
* A Python dict `keyword -> list of paths` is an association list in
  insertion order (`Dict` below); Python dict keys are unique, which the
  operations below preserve.
* The file system is a map `String → Option String`; `none` models a file
  whose `open`/`read` raises (the `except` branches of the source).
* `str.lower()` is modelled by mapping `Char.toLower` over the characters,
  and `a in b` (substring test) by list-infix on the characters.
* Python string comparison (used by `sorted`) is codepoint-lexicographic;
  it is modelled by the executable `lexLe` below.
* Exceptions are modelled by `Except PyError`; `run_analysis` is given
  deterministic sequential semantics (worker `i` computes
  `process_files_chunk` on chunk `i`, and the queue is drained in publication
  order), with the queue order abstracted where a claim is about scheduling
  nondeterminism (`run_analysis_drained`).
-/

/-- The file system: a file path maps to the text content of the file, or to
`none` when opening/reading the file raises an error. -/
abbrev FileSystem := String → Option String

/-- A Python dict from keyword to list of file paths, in insertion order. -/
abbrev Dict := List (String × List String)

/-- Errors raised by the source: `ValueError` for an unknown mode
(line 108) and `KeyError` for a missing dict key (line 73). -/
inductive PyError where
  | valueError (msg : String)
  | keyError (key : String)
deriving DecidableEq

/-- `str.lower()`: lowercase every character (the source lowercases file
content once, and each keyword, before comparing). -/
def pyLower (s : String) : String := ⟨s.data.map Char.toLower⟩

/-- Python `a in b` on strings: `a` occurs as a contiguous substring of `b`. -/
def substrB (a b : String) : Bool := decide (a.data <:+: b.data)

/-- Codepoint-lexicographic `≤` on character lists: the order Python uses to
compare strings. -/
def lexLe : List Char → List Char → Bool
  | [], _ => true
  | _ :: _, [] => false
  | a :: as, b :: bs => if a = b then lexLe as bs else decide (a < b)

/-- Python string `≤` (codepoint-lexicographic), as used by `sorted`. -/
def strLe (a b : String) : Bool := lexLe a.data b.data

/-- The sorting relation used throughout: ascending natural string order. -/
def strOrd (a b : String) : Prop := strLe a b = true

instance : DecidableRel strOrd := fun a b => instDecidableEqBool (strLe a b) true

/-! ## Python slicing and the chunking step (line 113) -/

/-- Helper for extended slicing: `sliceStepAux step l c` skips the next `c`
elements, takes one, and then repeats with countdown `step - 1`. -/
def sliceStepAux (step : Nat) : List α → Nat → List α
  | [], _ => []
  | x :: xs, 0 => x :: sliceStepAux step xs (step - 1)
  | _ :: xs, c + 1 => sliceStepAux step xs c

/-- Python `l[start::step]` for `step ≥ 1`: the elements at indices
`start, start + step, start + 2*step, …` in order. -/
def pySlice (l : List α) (start step : Nat) : List α :=
  sliceStepAux step (l.drop start) 0

/-- Line 113: `chunks = [file_list[i::num_workers] for i in range(num_workers)]`. -/
def pyChunks (l : List α) (n : Nat) : List (List α) :=
  (List.range n).map (fun i => pySlice l i n)

/-! ## Dict operations -/

/-- The keys of a dict, in insertion order. -/
def dictKeys (d : Dict) : List String := d.map Prod.fst

/-- Python `k in d` for a dict. -/
def hasKey (d : Dict) (k : String) : Bool := d.any (fun e => e.1 == k)

/-- One step of the comprehension `{k: [] for k in keywords}`: inserting an
already-present key leaves the dict unchanged. -/
def insertKey (d : Dict) (k : String) : Dict :=
  if hasKey d k then d else d ++ [(k, [])]

def insertKeys : Dict → List String → Dict
  | d, [] => d
  | d, k :: ks => insertKeys (insertKey d k) ks

/-- `{k: [] for k in keywords}` (lines 49 and 70). -/
def dictOfKeys (ks : List String) : Dict := insertKeys [] ks

/-- `d[k].append(f)` (line 58).  In the source the key is always present
there (it was initialised from the same keyword list), so the missing-key
`KeyError` cannot occur and the operation is modelled as total. -/
def dictAppend (d : Dict) (k f : String) : Dict :=
  d.map (fun e => if e.1 == k then (e.1, e.2 ++ [f]) else e)

/-- `d[k].extend(fs)` (line 73): raises `KeyError` when `k` is not a key. -/
def dictExtend (d : Dict) (k : String) (fs : List String) : Except PyError Dict :=
  if hasKey d k then
    .ok (d.map (fun e => if e.1 == k then (e.1, e.2 ++ fs) else e))
  else
    .error (.keyError k)

/-! ## The scanner: `process_files_chunk` (lines 44-65) -/

/-- The keyword loop (lines 56-58): for each keyword test lowercased
substring containment against the (already lowercased) content, and append
the file path under the original-casing keyword. -/
def searchKeywords (content f : String) : List String → Dict → Dict
  | [], d => d
  | k :: ks, d =>
      searchKeywords content f ks
        (if substrB (pyLower k) content then dictAppend d k f else d)

/-- Lines 51-63: read one file, lowercase its content once, and run the
keyword loop; an unreadable file is reported and skipped (the `except`
branches print and continue), leaving the accumulated dict unchanged. -/
def scanFile (fsys : FileSystem) (keywords : List String) (d : Dict) (f : String) : Dict :=
  match fsys f with
  | some text => searchKeywords (pyLower text) f keywords d
  | none => d

/-- The file loop of lines 51-63. -/
def scanChunk (fsys : FileSystem) (keywords : List String) : List String → Dict → Dict
  | [], d => d
  | f :: rest, d => scanChunk fsys keywords rest (scanFile fsys keywords d f)

/-- Lines 44-65: `process_files_chunk(file_chunk, keywords)`. -/
def process_files_chunk (fsys : FileSystem) (file_chunk keywords : List String) : Dict :=
  scanChunk fsys keywords file_chunk (dictOfKeys keywords)

/-! ## The merger: `merge_results` (lines 68-78) -/

/-- The inner loop of lines 72-73: extend `d` with every entry of one
published dict, propagating a `KeyError`. -/
def extendAll (d : Dict) : Dict → Except PyError Dict
  | [] => .ok d
  | e :: p =>
      match dictExtend d e.1 e.2 with
      | .ok d' => extendAll d' p
      | .error err => .error err

/-- The outer loop of lines 71-73 over all published dicts. -/
def mergeLoop (d : Dict) : List Dict → Except PyError Dict
  | [] => .ok d
  | p :: ps =>
      match extendAll d p with
      | .ok d' => mergeLoop d' ps
      | .error err => .error err

/-- `sorted(list(set(xs)))` (line 76): the distinct elements in ascending
natural string order. -/
def pySortedSet (xs : List String) : List String :=
  List.insertionSort strOrd xs.dedup

/-- Lines 68-78: `merge_results(partial_results, keywords)`. -/
def merge_results (results : List Dict) (keywords : List String) : Except PyError Dict :=
  match mergeLoop (dictOfKeys keywords) results with
  | .ok d => .ok (d.map (fun e => (e.1, pySortedSet e.2)))
  | .error err => .error err

/-! ## The engine: `run_analysis` (lines 90-133) -/

/-- The dicts published to the queue, one per worker, in worker order: worker
`i` runs `process_files_chunk` on chunk `i` (lines 113-127). -/
def workerResults (fsys : FileSystem) (file_list keywords : List String)
    (num_workers : Nat) : List Dict :=
  (pyChunks file_list num_workers).map (fun c => process_files_chunk fsys c keywords)

/-- Lines 90-133: `run_analysis(file_list, keywords, num_workers, mode)`.
The mode check (lines 99-108) happens before chunking and spawning; an
unknown mode raises `ValueError`.  Timing and printing are dropped. -/
def run_analysis (fsys : FileSystem) (file_list keywords : List String)
    (num_workers : Nat) (mode : String) : Except PyError Dict :=
  if mode == "threading" || mode == "multiprocessing" then
    merge_results (workerResults fsys file_list keywords num_workers) keywords
  else
    .error (.valueError ("Unknown mode: " ++ mode))

/-- `run_analysis` with the drained queue contents abstracted: `drained` is
the list of published dicts in whatever order the scheduler produced them.
Scheduling nondeterminism only permutes `drained` relative to
`workerResults`. -/
def run_analysis_drained (keywords : List String) (mode : String)
    (drained : List Dict) : Except PyError Dict :=
  if mode == "threading" || mode == "multiprocessing" then
    merge_results drained keywords
  else
    .error (.valueError ("Unknown mode: " ++ mode))

/-- Lines 125-129: after the joins, the drain loop collects exactly the
published entries (in queue order) and `merge_results` is applied to them.
The number of drained entries is never compared with `num_workers`. -/
def drain_and_merge (published : List Dict) (keywords : List String) : Except PyError Dict :=
  merge_results published keywords

/-! ## Proof-infrastructure definitions -/

/-- Add `c k` to the value of every entry with key `k`: the shape of every
successful pass over the merge dict. -/
def bump (c : String → List String) (d : Dict) : Dict :=
  d.map (fun e => (e.1, e.2 ++ c e.1))

/-- The contribution of one published dict to keyword `k`: the concatenation
of the values of its entries with key `k`, in entry order. -/
def contrib (k : String) : Dict → List String
  | [] => []
  | e :: p => (if e.1 == k then e.2 else []) ++ contrib k p

/-- The contribution of a list of published dicts to keyword `k`. -/
def contribAll (k : String) : List Dict → List String
  | [] => []
  | p :: ps => contrib k p ++ contribAll k ps

/-- What one pass of the keyword loop over `ks` adds to the dict entry with
key `x` when scanning file `f` with (lowercased) content `content`. -/
def selContrib (content f : String) : List String → String → List String
  | [], _ => []
  | k :: ks, x =>
      (if (k == x) && substrB (pyLower k) content then [f] else [])
        ++ selContrib content f ks x

/-! ## The sorting relation is a linear order -/

theorem lexLe_trans (a : List Char) :
    ∀ b c, lexLe a b = true → lexLe b c = true → lexLe a c = true := by
  induction a with
  | nil => intro b c _ _; rfl
  | cons x xs ih =>
    intro b c h1 h2
    cases b with
    | nil => simp [lexLe] at h1
    | cons y ys =>
      cases c with
      | nil => simp [lexLe] at h2
      | cons z zs =>
        by_cases hxy : x = y
        · subst hxy
          by_cases hyz : x = z
          · subst hyz
            simp only [lexLe, if_pos rfl] at h1 h2 ⊢
            exact ih ys zs h1 h2
          · simp only [lexLe, if_pos rfl, if_neg hyz] at h2 ⊢
            exact h2
        · by_cases hyz : y = z
          · subst hyz
            simp only [lexLe, if_neg hxy] at h1 ⊢
            exact h1
          · simp only [lexLe, if_neg hxy, decide_eq_true_eq] at h1
            simp only [lexLe, if_neg hyz, decide_eq_true_eq] at h2
            have hxz : x < z := lt_trans h1 h2
            simp [lexLe, ne_of_lt hxz, hxz]

theorem lexLe_total (a : List Char) : ∀ b, lexLe a b = true ∨ lexLe b a = true := by
  induction a with
  | nil => intro b; exact Or.inl rfl
  | cons x xs ih =>
    intro b
    cases b with
    | nil => exact Or.inr rfl
    | cons y ys =>
      by_cases hxy : x = y
      · subst hxy
        rcases ih ys with h | h
        · exact Or.inl (by simp [lexLe, h])
        · exact Or.inr (by simp [lexLe, h])
      · rcases lt_or_gt_of_ne hxy with h | h
        · exact Or.inl (by simp [lexLe, hxy, h])
        · exact Or.inr (by simp [lexLe, Ne.symm hxy, h])

theorem lexLe_antisymm : ∀ (a b : List Char), lexLe a b = true → lexLe b a = true → a = b
  | [], [], _, _ => rfl
  | [], _ :: _, _, h => by simp [lexLe] at h
  | _ :: _, [], h, _ => by simp [lexLe] at h
  | x :: xs, y :: ys, h1, h2 => by
      by_cases hxy : x = y
      · subst hxy
        simp only [lexLe, if_pos rfl] at h1 h2
        simp [lexLe_antisymm xs ys h1 h2]
      · simp only [lexLe, if_neg hxy, if_neg (Ne.symm hxy), decide_eq_true_eq] at h1 h2
        exact absurd h2 (lt_asymm h1)

instance : IsTrans String strOrd :=
  ⟨fun a b c h1 h2 => lexLe_trans a.data b.data c.data h1 h2⟩

instance : IsTotal String strOrd :=
  ⟨fun a b => lexLe_total a.data b.data⟩

instance : IsAntisymm String strOrd :=
  ⟨fun a b h1 h2 => by
    cases a; cases b
    exact congrArg String.mk (lexLe_antisymm _ _ h1 h2)⟩

theorem pySortedSet_sorted (xs : List String) : List.Sorted strOrd (pySortedSet xs) :=
  List.sorted_insertionSort strOrd _

theorem pySortedSet_nodup (xs : List String) : (pySortedSet xs).Nodup :=
  (List.perm_insertionSort strOrd xs.dedup).symm.nodup (List.nodup_dedup xs)

theorem pySortedSet_perm_congr {xs ys : List String} (h : xs.Perm ys) :
    pySortedSet xs = pySortedSet ys :=
  List.eq_of_perm_of_sorted
    (((List.perm_insertionSort _ _).trans h.dedup).trans (List.perm_insertionSort _ _).symm)
    (pySortedSet_sorted xs) (pySortedSet_sorted ys)

/-! ## Slicing and chunking lemmas -/

theorem sliceStepAux_drop {α : Type _} (n : Nat) :
    ∀ (l : List α) (c : Nat), sliceStepAux n l c = sliceStepAux n (l.drop c) 0 := by
  intro l
  induction l with
  | nil => intro c; cases c <;> rfl
  | cons x xs ih =>
    intro c
    cases c with
    | zero => rfl
    | succ c => simpa [sliceStepAux, List.drop_succ_cons] using ih c

theorem sliceStepAux_getElem? {α : Type _} {n : Nat} (hn : 0 < n) :
    ∀ (l : List α) (c j : Nat), (sliceStepAux n l c)[j]? = l[c + j * n]? := by
  intro l
  induction l with
  | nil => intro c j; simp [sliceStepAux]
  | cons x xs ih =>
    intro c j
    cases c with
    | zero =>
      cases j with
      | zero => simp [sliceStepAux]
      | succ j =>
        have hidx : 0 + (j + 1) * n = ((n - 1) + j * n) + 1 := by
          rw [Nat.succ_mul]
          omega
        rw [hidx]
        simp only [sliceStepAux, List.getElem?_cons_succ]
        exact ih (n - 1) j
    | succ c =>
      have hidx : (c + 1) + j * n = (c + j * n) + 1 := by omega
      rw [hidx, List.getElem?_cons_succ]
      simpa [sliceStepAux] using ih c j

theorem pySlice_getElem? {α : Type _} (l : List α) (i : Nat) {n : Nat} (hn : 0 < n)
    (j : Nat) : (pySlice l i n)[j]? = l[i + j * n]? := by
  unfold pySlice
  rw [sliceStepAux_getElem? hn (l.drop i) 0 j, List.getElem?_drop, Nat.zero_add]

theorem pyChunks_length {α : Type _} (l : List α) (n : Nat) : (pyChunks l n).length = n := by
  simp [pyChunks]

theorem pyChunks_getElem? {α : Type _} (l : List α) {n i : Nat} (hi : i < n) :
    (pyChunks l n)[i]? = some (pySlice l i n) := by
  simp [pyChunks, List.getElem?_map, List.getElem?_range hi]

theorem pySlice_nil {α : Type _} (i n : Nat) : pySlice ([] : List α) i n = [] := by
  simp [pySlice, sliceStepAux]

theorem pySlice_cons_zero {α : Type _} (x : α) (xs : List α) (m : Nat) :
    pySlice (x :: xs) 0 (m + 1) = x :: pySlice xs m (m + 1) := by
  show x :: sliceStepAux (m + 1) xs m = _
  rw [sliceStepAux_drop]
  rfl

theorem pySlice_cons_succ {α : Type _} (x : α) (xs : List α) (i n : Nat) :
    pySlice (x :: xs) (i + 1) n = pySlice xs i n := by
  unfold pySlice
  rw [List.drop_succ_cons]

theorem pyChunks_flatten_perm {α : Type _} (l : List α) {n : Nat} (hn : 0 < n) :
    (pyChunks l n).flatten.Perm l := by
  obtain ⟨m, rfl⟩ : ∃ m, n = m + 1 := ⟨n - 1, by omega⟩
  induction l with
  | nil =>
    have hnil : ∀ c ∈ pyChunks ([] : List α) (m + 1), c = [] := by
      intro c hc
      simp only [pyChunks, List.mem_map, List.mem_range] at hc
      obtain ⟨i, _, rfl⟩ := hc
      exact pySlice_nil i (m + 1)
    rw [List.flatten_eq_nil_iff.mpr hnil]
  | cons x xs ih =>
    have hc : pyChunks (x :: xs) (m + 1)
        = (x :: pySlice xs m (m + 1)) :: (List.range m).map (fun i => pySlice xs i (m + 1)) := by
      unfold pyChunks
      rw [List.range_succ_eq_map]
      simp only [List.map_cons, List.map_map, Function.comp_def, Nat.succ_eq_add_one]
      rw [pySlice_cons_zero]
      simp [pySlice_cons_succ]
    have hxs : (pyChunks xs (m + 1)).flatten
        = ((List.range m).map (fun i => pySlice xs i (m + 1))).flatten ++ pySlice xs m (m + 1) := by
      unfold pyChunks
      rw [List.range_succ, List.map_append, List.flatten_append]
      simp
    rw [hc, List.flatten_cons, List.cons_append]
    exact (List.perm_append_comm.trans (hxs ▸ ih)).cons x

/-! ## Dict lemmas -/

theorem hasKey_cons {e : String × List String} {d : Dict} {k : String} :
    hasKey (e :: d) k = (e.1 == k || hasKey d k) := rfl

theorem hasKey_iff_mem {d : Dict} {k : String} : hasKey d k = true ↔ k ∈ dictKeys d := by
  simp [hasKey, dictKeys, List.any_eq_true, beq_iff_eq, List.mem_map]

theorem lookup_cons_eq {k0 k : String} {v0 : List String} {d : Dict} (h : k = k0) :
    List.lookup k ((k0, v0) :: d) = some v0 := by
  subst h
  simp [List.lookup_cons]

theorem lookup_cons_ne {k0 k : String} {v0 : List String} {d : Dict} (h : ¬ k = k0) :
    List.lookup k ((k0, v0) :: d) = List.lookup k d := by
  have hb : (k == k0) = false := by simp [beq_iff_eq, h]
  simp [List.lookup_cons, hb]

theorem lookup_eq_nil_of_all_nil {d : Dict} {k : String}
    (hv : ∀ e ∈ d, e.2 = ([] : List String)) (hk : hasKey d k = true) :
    List.lookup k d = some [] := by
  induction d with
  | nil => simp [hasKey] at hk
  | cons e d ih =>
    obtain ⟨k0, v0⟩ := e
    have hv0 : v0 = [] := hv (k0, v0) (by simp)
    by_cases h : k = k0
    · rw [lookup_cons_eq h, hv0]
    · rw [lookup_cons_ne h]
      rw [hasKey_cons] at hk
      simp only [beq_iff_eq] at hk
      rcases Bool.or_eq_true_iff.mp hk with h' | h'
      · exact absurd (of_decide_eq_true h').symm h
      · exact ih (fun e he => hv e (List.mem_cons_of_mem _ he)) h'

theorem hasKey_insertKey_of {d : Dict} {k k' : String} (h : hasKey d k = true) :
    hasKey (insertKey d k') k = true := by
  unfold insertKey
  split
  · exact h
  · unfold hasKey at h ⊢
    rw [List.any_append, h]
    rfl

theorem hasKey_insertKey_self {d : Dict} {k : String} :
    hasKey (insertKey d k) k = true := by
  unfold insertKey
  split
  · assumption
  · simp [hasKey, List.any_append]

theorem mem_of_hasKey_insertKey {d : Dict} {k k' : String}
    (h : hasKey (insertKey d k') k = true) : hasKey d k = true ∨ k = k' := by
  unfold insertKey at h
  split at h
  · exact Or.inl h
  · simp only [hasKey, List.any_append, Bool.or_eq_true] at h
    rcases h with h | h
    · exact Or.inl h
    · simp only [List.any_cons, List.any_nil, Bool.or_false, beq_iff_eq] at h
      exact Or.inr h.symm

theorem hasKey_insertKeys {ks : List String} :
    ∀ {d : Dict} {k : String}, k ∈ ks ∨ hasKey d k = true →
      hasKey (insertKeys d ks) k = true := by
  induction ks with
  | nil =>
    intro d k h
    rcases h with h | h
    · exact absurd h (List.not_mem_nil k)
    · exact h
  | cons k0 ks ih =>
    intro d k h
    show hasKey (insertKeys (insertKey d k0) ks) k = true
    rcases h with h | h
    · rcases List.mem_cons.mp h with rfl | h'
      · exact ih (Or.inr hasKey_insertKey_self)
      · exact ih (Or.inl h')
    · exact ih (Or.inr (hasKey_insertKey_of h))

theorem mem_of_hasKey_insertKeys {ks : List String} :
    ∀ {d : Dict} {k : String}, hasKey (insertKeys d ks) k = true →
      hasKey d k = true ∨ k ∈ ks := by
  induction ks with
  | nil => intro d k h; exact Or.inl h
  | cons k0 ks ih =>
    intro d k h
    rcases ih h with h' | h'
    · rcases mem_of_hasKey_insertKey h' with h'' | rfl
      · exact Or.inl h''
      · exact Or.inr (List.mem_cons_self _ _)
    · exact Or.inr (List.mem_cons_of_mem _ h')

theorem vals_insertKeys {ks : List String} :
    ∀ {d : Dict}, ∀ e ∈ insertKeys d ks, e ∈ d ∨ e.2 = ([] : List String) := by
  induction ks with
  | nil => intro d e he; exact Or.inl he
  | cons k0 ks ih =>
    intro d e he
    rcases ih e he with h | h
    · unfold insertKey at h
      split at h
      · exact Or.inl h
      · rcases List.mem_append.mp h with h' | h'
        · exact Or.inl h'
        · simp only [List.mem_singleton] at h'
          exact Or.inr (by rw [h'])
    · exact Or.inr h

theorem hasKey_dictOfKeys {ks : List String} {k : String} :
    hasKey (dictOfKeys ks) k = true ↔ k ∈ ks := by
  constructor
  · intro h
    rcases mem_of_hasKey_insertKeys h with h' | h'
    · simp [hasKey] at h'
    · exact h'
  · intro h
    exact hasKey_insertKeys (Or.inl h)

theorem vals_dictOfKeys {ks : List String} : ∀ e ∈ dictOfKeys ks, e.2 = ([] : List String) := by
  intro e he
  rcases vals_insertKeys e he with h | h
  · exact absurd h (List.not_mem_nil e)
  · exact h

theorem lookup_dictOfKeys {ks : List String} {k : String} (h : k ∈ ks) :
    List.lookup k (dictOfKeys ks) = some [] :=
  lookup_eq_nil_of_all_nil vals_dictOfKeys (hasKey_dictOfKeys.mpr h)

/-! ## Merge characterisation -/

theorem hasKey_bump {c : String → List String} {d : Dict} {k : String} :
    hasKey (bump c d) k = hasKey d k := by
  simp [hasKey, bump, List.any_map, Function.comp_def]

theorem bump_bump {c1 c2 : String → List String} {d : Dict} :
    bump c2 (bump c1 d) = bump (fun k => c1 k ++ c2 k) d := by
  simp [bump, List.map_map, Function.comp_def, List.append_assoc]

theorem bump_nil_fun {d : Dict} : bump (fun _ => []) d = d := by
  simp [bump]

theorem dictKeys_bump {c : String → List String} {d : Dict} :
    dictKeys (bump c d) = dictKeys d := by
  simp [dictKeys, bump, List.map_map, Function.comp_def]

theorem dictExtend_ok {d : Dict} {k : String} {fs : List String} (h : hasKey d k = true) :
    dictExtend d k fs = .ok (bump (fun x => if k == x then fs else []) d) := by
  simp only [dictExtend, h, if_true, bump]
  congr 1
  apply List.map_congr_left
  intro e _
  by_cases he : e.1 = k
  · simp [he]
  · have h1 : (e.1 == k) = false := by simp [beq_iff_eq, he]
    have h2 : (k == e.1) = false := by simp [beq_iff_eq, Ne.symm he]
    simp [h1, h2]

theorem dictExtend_error {d : Dict} {k : String} {fs : List String} (h : hasKey d k = false) :
    dictExtend d k fs = .error (.keyError k) := by
  simp [dictExtend, h]

theorem extendAll_ok {p : Dict} :
    ∀ {d : Dict}, (∀ e ∈ p, hasKey d e.1 = true) →
      extendAll d p = .ok (bump (fun x => contrib x p) d) := by
  induction p with
  | nil =>
    intro d _
    simp [extendAll, contrib, bump_nil_fun]
  | cons e p ih =>
    intro d h
    have he : hasKey d e.1 = true := h e (List.mem_cons_self _ _)
    simp only [extendAll, dictExtend_ok he]
    rw [ih (fun e' he' => by rw [hasKey_bump]; exact h e' (List.mem_cons_of_mem _ he'))]
    rw [bump_bump]
    rfl

theorem extendAll_error_shape {p : Dict} :
    ∀ {d : Dict} {err : PyError}, extendAll d p = .error err →
      ∃ e ∈ p, hasKey d e.1 = false ∧ err = .keyError e.1 := by
  induction p with
  | nil => intro d err h; simp [extendAll] at h
  | cons e p ih =>
    intro d err h
    cases h0 : hasKey d e.1 with
    | false =>
      rw [extendAll, dictExtend_error h0] at h
      simp only [Except.error.injEq] at h
      exact ⟨e, List.mem_cons_self _ _, h0, h.symm⟩
    | true =>
      rw [extendAll, dictExtend_ok h0] at h
      simp only at h
      obtain ⟨e', he', hk, herr⟩ := ih h
      rw [hasKey_bump] at hk
      exact ⟨e', List.mem_cons_of_mem _ he', hk, herr⟩

theorem extendAll_error_exists {p : Dict} :
    ∀ {d : Dict}, (∃ e ∈ p, hasKey d e.1 = false) →
      ∃ err, extendAll d p = .error err := by
  induction p with
  | nil => intro d h; simp at h
  | cons e p ih =>
    intro d h
    cases h0 : hasKey d e.1 with
    | false => exact ⟨.keyError e.1, by rw [extendAll, dictExtend_error h0]⟩
    | true =>
      obtain ⟨e', he', hk⟩ := h
      have he'p : e' ∈ p := by
        rcases List.mem_cons.mp he' with rfl | hp
        · exact absurd h0 (by rw [hk]; exact Bool.false_ne_true)
        · exact hp
      have hk' : hasKey (bump (fun x => if e.1 == x then e.2 else []) d) e'.1 = false := by
        rw [hasKey_bump]; exact hk
      obtain ⟨err, herr⟩ := ih ⟨e', he'p, hk'⟩
      exact ⟨err, by rw [extendAll, dictExtend_ok h0]; simpa using herr⟩

theorem mergeLoop_ok {ps : List Dict} :
    ∀ {d : Dict}, (∀ p ∈ ps, ∀ e ∈ p, hasKey d e.1 = true) →
      mergeLoop d ps = .ok (bump (fun x => contribAll x ps) d) := by
  induction ps with
  | nil =>
    intro d _
    simp [mergeLoop, contribAll, bump_nil_fun]
  | cons p ps ih =>
    intro d h
    simp only [mergeLoop, extendAll_ok (h p (List.mem_cons_self _ _))]
    rw [ih (fun q hq e he => by
      rw [hasKey_bump]; exact h q (List.mem_cons_of_mem _ hq) e he)]
    rw [bump_bump]
    rfl

theorem mergeLoop_error_shape {ps : List Dict} :
    ∀ {d : Dict} {err : PyError}, mergeLoop d ps = .error err →
      ∃ p ∈ ps, ∃ e ∈ p, hasKey d e.1 = false ∧ err = .keyError e.1 := by
  induction ps with
  | nil => intro d err h; simp [mergeLoop] at h
  | cons p ps ih =>
    intro d err h
    rw [mergeLoop] at h
    cases hx : extendAll d p with
    | error err' =>
      rw [hx] at h
      simp only [Except.error.injEq] at h
      obtain ⟨e, he, hk, herr⟩ := extendAll_error_shape hx
      exact ⟨p, List.mem_cons_self _ _, e, he, hk, h ▸ herr⟩
    | ok d' =>
      rw [hx] at h
      simp only at h
      have hallp : ∀ e ∈ p, hasKey d e.1 = true := by
        by_contra hne
        push_neg at hne
        obtain ⟨e, he, hk⟩ := hne
        obtain ⟨err', herr'⟩ := extendAll_error_exists ⟨e, he, Bool.eq_false_iff.mpr hk⟩
        rw [herr'] at hx
        exact Except.noConfusion hx
      have hd' : d' = bump (fun x => contrib x p) d := by
        have := extendAll_ok hallp
        rw [hx] at this
        exact (Except.ok.injEq _ _ ▸ this : _)
      subst hd'
      obtain ⟨q, hq, e, he, hk, herr⟩ := ih h
      rw [hasKey_bump] at hk
      exact ⟨q, List.mem_cons_of_mem _ hq, e, he, hk, herr⟩

theorem mergeLoop_error_exists {ps : List Dict} :
    ∀ {d : Dict}, (∃ p ∈ ps, ∃ e ∈ p, hasKey d e.1 = false) →
      ∃ err, mergeLoop d ps = .error err := by
  induction ps with
  | nil => intro d h; simp at h
  | cons p ps ih =>
    intro d h
    by_cases hallp : ∀ e ∈ p, hasKey d e.1 = true
    · obtain ⟨q, hq, e, he, hk⟩ := h
      have hqps : q ∈ ps := by
        rcases List.mem_cons.mp hq with rfl | hps
        · exact absurd (hallp e he) (by rw [hk]; exact Bool.false_ne_true)
        · exact hps
      have hk' : hasKey (bump (fun x => contrib x p) d) e.1 = false := by
        rw [hasKey_bump]; exact hk
      obtain ⟨err, herr⟩ := ih ⟨q, hqps, e, he, hk'⟩
      exact ⟨err, by rw [mergeLoop, extendAll_ok hallp]; simpa using herr⟩
    · push_neg at hallp
      obtain ⟨e, he, hk⟩ := hallp
      obtain ⟨err, herr⟩ := extendAll_error_exists ⟨e, he, Bool.eq_false_iff.mpr hk⟩
      exact ⟨err, by rw [mergeLoop, herr]⟩

/-- On key-respecting inputs, `merge_results` is the dict that maps each
declared keyword to the sorted set of all contributions to it. -/
theorem merge_results_ok_char {ps : List Dict} {ks : List String}
    (h : ∀ p ∈ ps, ∀ e ∈ p, e.1 ∈ ks) :
    merge_results ps ks
      = .ok ((dictOfKeys ks).map (fun e => (e.1, pySortedSet (contribAll e.1 ps)))) := by
  unfold merge_results
  rw [mergeLoop_ok (fun p hp e he => hasKey_dictOfKeys.mpr (h p hp e he))]
  simp only [bump, List.map_map]
  congr 1
  apply List.map_congr_left
  intro e he
  simp [Function.comp_def, vals_dictOfKeys e he]

theorem merge_results_error_exists {ps : List Dict} {ks : List String}
    (h : ∃ p ∈ ps, ∃ e ∈ p, ¬ e.1 ∈ ks) :
    ∃ err, merge_results ps ks = .error err := by
  obtain ⟨p, hp, e, he, hk⟩ := h
  have hk' : hasKey (dictOfKeys ks) e.1 = false := by
    rw [Bool.eq_false_iff]
    intro hc
    exact hk (hasKey_dictOfKeys.mp hc)
  obtain ⟨err, herr⟩ := mergeLoop_error_exists ⟨p, hp, e, he, hk'⟩
  exact ⟨err, by rw [merge_results, herr]⟩

theorem merge_results_error_shape {ps : List Dict} {ks : List String} {err : PyError}
    (h : merge_results ps ks = .error err) :
    ∃ k, ¬ k ∈ ks ∧ err = .keyError k := by
  rw [merge_results] at h
  cases hx : mergeLoop (dictOfKeys ks) ps with
  | ok d => rw [hx] at h; exact Except.noConfusion h
  | error err' =>
    rw [hx] at h
    simp only [Except.error.injEq] at h
    obtain ⟨p, _, e, _, hk, herr⟩ := mergeLoop_error_shape hx
    refine ⟨e.1, ?_, h ▸ herr⟩
    intro hc
    exact absurd (hasKey_dictOfKeys.mpr hc) (by rw [hk]; exact Bool.false_ne_true)

/-! ## Contribution and lookup lemmas -/

theorem contribAll_perm (k : String) {ps ps' : List Dict} (h : ps.Perm ps') :
    (contribAll k ps).Perm (contribAll k ps') := by
  induction h with
  | nil => exact List.Perm.refl _
  | cons p _ ih => exact List.Perm.append_left (contrib k p) ih
  | swap p q l =>
    show (contrib k q ++ (contrib k p ++ contribAll k l)).Perm
      (contrib k p ++ (contrib k q ++ contribAll k l))
    rw [← List.append_assoc, ← List.append_assoc]
    exact List.Perm.append_right _ List.perm_append_comm
  | trans _ _ ih1 ih2 => exact ih1.trans ih2

theorem contrib_eq_nil {p : Dict} {k : String} (h : ∀ e ∈ p, e.1 = k → e.2 = []) :
    contrib k p = [] := by
  induction p with
  | nil => rfl
  | cons e p ih =>
    rw [contrib, ih (fun e' he' => h e' (List.mem_cons_of_mem _ he'))]
    by_cases hk : e.1 = k
    · simp [hk, h e (List.mem_cons_self _ _) hk]
    · simp [beq_iff_eq, hk]

theorem contribAll_eq_nil {ps : List Dict} {k : String}
    (h : ∀ p ∈ ps, ∀ e ∈ p, e.1 = k → e.2 = []) : contribAll k ps = [] := by
  induction ps with
  | nil => rfl
  | cons p ps ih =>
    rw [contribAll, contrib_eq_nil (h p (List.mem_cons_self _ _)), List.nil_append]
    exact ih (fun q hq => h q (List.mem_cons_of_mem _ hq))

theorem lookup_map_entry {d : Dict} {g : String → List String → List String} {k : String} :
    List.lookup k (d.map (fun e => (e.1, g e.1 e.2))) = (List.lookup k d).map (g k) := by
  induction d with
  | nil => rfl
  | cons e d ih =>
    obtain ⟨k0, v0⟩ := e
    rw [List.map_cons]
    by_cases h : k = k0
    · subst h
      rw [lookup_cons_eq rfl, lookup_cons_eq rfl]
      rfl
    · rw [lookup_cons_ne h, lookup_cons_ne h]
      exact ih

theorem lookup_bump {c : String → List String} {d : Dict} {k : String} :
    List.lookup k (bump c d) = (List.lookup k d).map (fun v => v ++ c k) := by
  unfold bump
  exact @lookup_map_entry d (fun x v => v ++ c x) k

/-! ## Scanner lemmas -/

theorem dictAppend_eq_bump {d : Dict} {k0 f : String} :
    dictAppend d k0 f = bump (fun x => if k0 == x then [f] else []) d := by
  unfold dictAppend bump
  apply List.map_congr_left
  intro e _
  by_cases he : e.1 = k0
  · simp [he]
  · have h1 : (e.1 == k0) = false := by simp [beq_iff_eq, he]
    have h2 : (k0 == e.1) = false := by simp [beq_iff_eq, Ne.symm he]
    simp [h1, h2]

theorem searchKeywords_eq_bump (content f : String) :
    ∀ (ks : List String) (d : Dict),
      searchKeywords content f ks d = bump (selContrib content f ks) d := by
  intro ks
  induction ks with
  | nil =>
    intro d
    show d = bump (selContrib content f []) d
    rw [show selContrib content f [] = fun _ => ([] : List String) from rfl, bump_nil_fun]
  | cons k ks ih =>
    intro d
    rw [searchKeywords]
    cases hm : substrB (pyLower k) content with
    | true =>
      rw [if_pos rfl, dictAppend_eq_bump, ih, bump_bump]
      congr 1
      funext x
      simp only [selContrib, hm, Bool.and_true]
    | false =>
      rw [if_neg Bool.false_ne_true, ih]
      congr 1
      funext x
      simp only [selContrib, hm, Bool.and_false, Bool.false_eq_true, if_false,
        List.nil_append]

theorem selContrib_vals {content f : String} :
    ∀ {ks : List String} {x : String}, ∀ y ∈ selContrib content f ks x, y = f := by
  intro ks
  induction ks with
  | nil => intro x y hy; simp [selContrib] at hy
  | cons k ks ih =>
    intro x y hy
    rw [selContrib] at hy
    rcases List.mem_append.mp hy with h | h
    · split at h
      · simpa using h
      · simp at h
    · exact ih y h

theorem selContrib_not_mem {content f : String} :
    ∀ {ks : List String} {x : String}, ¬ x ∈ ks → selContrib content f ks x = [] := by
  intro ks
  induction ks with
  | nil => intro x _; rfl
  | cons k ks ih =>
    intro x hx
    rw [selContrib]
    have hkx : ¬ k = x := fun hc => hx (by rw [← hc]; exact List.mem_cons_self _ _)
    have hne : (k == x) = false := by simp [beq_iff_eq, hkx]
    rw [hne]
    simp only [Bool.false_and, Bool.false_eq_true, if_false, List.nil_append]
    exact ih (fun hc => hx (List.mem_cons_of_mem _ hc))

theorem selContrib_eq {content f : String} :
    ∀ {ks : List String} {k : String}, ks.Nodup → k ∈ ks →
      selContrib content f ks k
        = if substrB (pyLower k) content = true then [f] else [] := by
  intro ks
  induction ks with
  | nil => intro k _ hk; exact absurd hk (List.not_mem_nil k)
  | cons k0 ks ih =>
    intro k hnd hk
    obtain ⟨hk0, hndks⟩ := List.nodup_cons.mp hnd
    rw [selContrib]
    rcases List.mem_cons.mp hk with rfl | hmem
    · rw [selContrib_not_mem hk0, List.append_nil]
      simp only [beq_self_eq_true, Bool.true_and]
    · have hk0k : ¬ k0 = k := fun hc => hk0 (by rw [hc]; exact hmem)
      have hne : (k0 == k) = false := by simp [beq_iff_eq, hk0k]
      rw [hne]
      simp only [Bool.false_and, Bool.false_eq_true, if_false, List.nil_append]
      exact ih hndks hmem

/-! ## Chunk-scan lemmas -/

theorem scanFile_unreadable {fsys : FileSystem} {ks : List String} {d : Dict} {f : String}
    (h : fsys f = none) : scanFile fsys ks d f = d := by
  simp [scanFile, h]

theorem scanFile_readable {fsys : FileSystem} {ks : List String} {d : Dict} {f text : String}
    (h : fsys f = some text) :
    scanFile fsys ks d f = bump (selContrib (pyLower text) f ks) d := by
  simp [scanFile, h, searchKeywords_eq_bump]

theorem scanChunk_append {fsys : FileSystem} {ks : List String} :
    ∀ (a b : List String) (d : Dict),
      scanChunk fsys ks (a ++ b) d = scanChunk fsys ks b (scanChunk fsys ks a d) := by
  intro a
  induction a with
  | nil => intro b d; rfl
  | cons f a ih => intro b d; exact ih b (scanFile fsys ks d f)

theorem dictKeys_scanFile {fsys : FileSystem} {ks : List String} {d : Dict} {f : String} :
    dictKeys (scanFile fsys ks d f) = dictKeys d := by
  cases h : fsys f with
  | none => rw [scanFile_unreadable h]
  | some text => rw [scanFile_readable h, dictKeys_bump]

theorem dictKeys_scanChunk {fsys : FileSystem} {ks : List String} :
    ∀ (c : List String) (d : Dict), dictKeys (scanChunk fsys ks c d) = dictKeys d := by
  intro c
  induction c with
  | nil => intro d; rfl
  | cons f c ih =>
    intro d
    show dictKeys (scanChunk fsys ks c (scanFile fsys ks d f)) = dictKeys d
    rw [ih, dictKeys_scanFile]

theorem keys_process_files_chunk {fsys : FileSystem} {c ks : List String} :
    ∀ e ∈ process_files_chunk fsys c ks, e.1 ∈ ks := by
  intro e he
  have h1 : e.1 ∈ dictKeys (process_files_chunk fsys c ks) :=
    List.mem_map_of_mem Prod.fst he
  rw [process_files_chunk, dictKeys_scanChunk] at h1
  exact hasKey_dictOfKeys.mp (hasKey_iff_mem.mpr h1)

theorem vals_scanChunk {fsys : FileSystem} {ks : List String} :
    ∀ (c : List String) (d : Dict), ∀ e ∈ scanChunk fsys ks c d, ∀ x ∈ e.2,
      (∃ e' ∈ d, x ∈ e'.2) ∨ (fsys x).isSome = true := by
  intro c
  induction c with
  | nil => intro d e he x hx; exact Or.inl ⟨e, he, hx⟩
  | cons f c ih =>
    intro d e he x hx
    rcases ih (scanFile fsys ks d f) e he x hx with ⟨e', he', hx'⟩ | h
    · cases hf : fsys f with
      | none =>
        rw [scanFile_unreadable hf] at he'
        exact Or.inl ⟨e', he', hx'⟩
      | some text =>
        rw [scanFile_readable hf] at he'
        obtain ⟨e0, he0, rfl⟩ := List.mem_map.mp he'
        rcases List.mem_append.mp hx' with h0 | h0
        · exact Or.inl ⟨e0, he0, h0⟩
        · have hxf : x = f := selContrib_vals x h0
          exact Or.inr (by rw [hxf, hf]; rfl)
    · exact Or.inr h

theorem vals_process_files_chunk {fsys : FileSystem} {c ks : List String} :
    ∀ e ∈ process_files_chunk fsys c ks, ∀ x ∈ e.2, (fsys x).isSome = true := by
  intro e he x hx
  rcases vals_scanChunk c (dictOfKeys ks) e he x hx with ⟨e', he', hx'⟩ | h
  · rw [vals_dictOfKeys e' he'] at hx'
    exact absurd hx' (List.not_mem_nil x)
  · exact h

theorem keys_workerResults {fsys : FileSystem} {file_list keywords : List String}
    {num_workers : Nat} :
    ∀ p ∈ workerResults fsys file_list keywords num_workers, ∀ e ∈ p, e.1 ∈ keywords := by
  intro p hp
  obtain ⟨ch, _, rfl⟩ := List.mem_map.mp hp
  exact keys_process_files_chunk

/-! ## Claim theorems -/

/-- Claim C1: for every file list, keyword list and worker count, the
shared-memory (`"threading"`) and isolated-process (`"multiprocessing"`)
paths of `run_analysis` return identical results; moreover the equality is
independent of the order in which the queue yields the published dicts, so
it holds for any pair of drain schedules of the two models. -/
theorem run_analysis_cross_model_equiv (fsys : FileSystem)
    (file_list keywords : List String) (num_workers : Nat) :
    run_analysis fsys file_list keywords num_workers "threading"
        = run_analysis fsys file_list keywords num_workers "multiprocessing"
    ∧ ∀ drained1 drained2 : List Dict,
        drained1.Perm (workerResults fsys file_list keywords num_workers) →
        drained2.Perm (workerResults fsys file_list keywords num_workers) →
        run_analysis_drained keywords "threading" drained1
          = run_analysis_drained keywords "multiprocessing" drained2 := by
  constructor
  · rfl
  · intro d1 d2 h1 h2
    show merge_results d1 keywords = merge_results d2 keywords
    have hk1 : ∀ p ∈ d1, ∀ e ∈ p, e.1 ∈ keywords :=
      fun p hp => keys_workerResults p (h1.mem_iff.mp hp)
    have hk2 : ∀ p ∈ d2, ∀ e ∈ p, e.1 ∈ keywords :=
      fun p hp => keys_workerResults p (h2.mem_iff.mp hp)
    rw [merge_results_ok_char hk1, merge_results_ok_char hk2]
    congr 1
    apply List.map_congr_left
    intro e _
    rw [pySortedSet_perm_congr (contribAll_perm e.1 (h1.trans h2.symm))]

/-- Witness for C1 at a concrete file system, file list and drain order. -/
theorem run_analysis_cross_model_equiv_witness :
    run_analysis_drained ["python"] "threading"
        (workerResults (fun f => if f = "a.txt" then some "Say PYTHON" else none)
          ["a.txt", "b.txt"] ["python"] 2)
      = run_analysis_drained ["python"] "multiprocessing"
        (workerResults (fun f => if f = "a.txt" then some "Say PYTHON" else none)
          ["a.txt", "b.txt"] ["python"] 2) :=
  (run_analysis_cross_model_equiv
      (fun f => if f = "a.txt" then some "Say PYTHON" else none)
      ["a.txt", "b.txt"] ["python"] 2).2 _ _ (List.Perm.refl _) (List.Perm.refl _)

/-- Claim C2: whenever `merge_results` returns a dict, every keyword of the
input keyword list is a key of it, the file list of each keyword is
duplicate-free and sorted in ascending natural string order, and a keyword
with no matches in any published dict is mapped to the empty list. -/
theorem merge_results_complete_sorted_nodup (ps : List Dict) (ks : List String) (d : Dict)
    (h : merge_results ps ks = .ok d) :
    ∀ k ∈ ks, ∃ fs, List.lookup k d = some fs ∧ fs.Nodup ∧ List.Sorted strOrd fs ∧
      ((∀ p ∈ ps, ∀ e ∈ p, e.1 = k → e.2 = []) → fs = []) := by
  intro k hk
  have hcond : ∀ p ∈ ps, ∀ e ∈ p, e.1 ∈ ks := by
    by_contra hne
    push_neg at hne
    obtain ⟨err, herr⟩ := merge_results_error_exists hne
    rw [herr] at h
    exact Except.noConfusion h
  rw [merge_results_ok_char hcond] at h
  injection h with h
  refine ⟨pySortedSet (contribAll k ps), ?_, pySortedSet_nodup _, pySortedSet_sorted _, ?_⟩
  · rw [← h]
    have h1 : List.lookup k
          ((dictOfKeys ks).map (fun e => (e.1, pySortedSet (contribAll e.1 ps))))
        = (List.lookup k (dictOfKeys ks)).map (fun _ => pySortedSet (contribAll k ps)) :=
      @lookup_map_entry (dictOfKeys ks) (fun x _ => pySortedSet (contribAll x ps)) k
    rw [h1, lookup_dictOfKeys hk]
    rfl
  · intro hnil
    rw [contribAll_eq_nil hnil]
    rfl

/-- Witness for C2 at a concrete merge. -/
theorem merge_results_complete_sorted_nodup_witness :
    ∃ fs, List.lookup "k" [("k", ["a", "b"])] = some fs ∧ fs.Nodup
      ∧ List.Sorted strOrd fs
      ∧ ((∀ p ∈ [[("k", ["b", "a"])]], ∀ e ∈ p, e.1 = "k" → e.2 = []) → fs = []) :=
  merge_results_complete_sorted_nodup [[("k", ["b", "a"])]] ["k"] [("k", ["a", "b"])]
    rfl "k" (List.mem_cons_self _ _)

/-- Claim C3 counterexample: on the input list `["a", "a"]` with two workers
the identifier `"a"` appears in both chunks, so the clause "no file
identifier appears in two chunks" fails for file lists with duplicates. -/
theorem chunks_disjoint_cex :
    ¬ (∀ (i j : Nat) (ci cj : List String), i ≠ j →
        (pyChunks ["a", "a"] 2)[i]? = some ci → (pyChunks ["a", "a"] 2)[j]? = some cj →
        ∀ x ∈ ci, ¬ x ∈ cj) := by
  intro h
  exact h 0 1 ["a"] ["a"] (by decide) (by decide) (by decide) "a" (by decide) (by decide)

/-- Claim C3 (amended): for every file list and positive worker count the
chunks partition the input counting multiplicity — their concatenation is a
permutation of the input and every chunk element occurs in the input — and
when the input list has no duplicate identifiers, no identifier appears in
two distinct chunks. -/
theorem chunks_partition (l : List String) (n : Nat) (hn : 0 < n) :
    (pyChunks l n).flatten.Perm l
    ∧ (∀ c ∈ pyChunks l n, ∀ x ∈ c, x ∈ l)
    ∧ (l.Nodup → ∀ (i j : Nat) (ci cj : List String), i ≠ j →
        (pyChunks l n)[i]? = some ci → (pyChunks l n)[j]? = some cj →
        ∀ x ∈ ci, ¬ x ∈ cj) := by
  refine ⟨pyChunks_flatten_perm l hn, ?_, ?_⟩
  · intro c hc x hx
    exact (pyChunks_flatten_perm l hn).mem_iff.mp (List.mem_flatten.mpr ⟨c, hc, hx⟩)
  · intro hnd i j ci cj hij hi hj x hxi hxj
    have hflat : (pyChunks l n).flatten.Nodup := (pyChunks_flatten_perm l hn).symm.nodup hnd
    have hpw := (List.nodup_flatten.mp hflat).2
    obtain ⟨hilen, hci⟩ := List.getElem?_eq_some_iff.mp hi
    obtain ⟨hjlen, hcj⟩ := List.getElem?_eq_some_iff.mp hj
    rcases Nat.lt_or_ge i j with hlt | hge
    · have hd := List.pairwise_iff_getElem.mp hpw i j hilen hjlen hlt
      rw [hci, hcj] at hd
      exact hd hxi hxj
    · have hjlt : j < i := by omega
      have hd := List.pairwise_iff_getElem.mp hpw j i hjlen hilen hjlt
      rw [hcj, hci] at hd
      exact hd hxj hxi

/-- Witness for C3 (amended) at a concrete list. -/
theorem chunks_partition_witness :
    (pyChunks ["a", "b", "c"] 2).flatten.Perm ["a", "b", "c"] :=
  (chunks_partition ["a", "b", "c"] 2 (by decide)).1

/-- Claim C4: chunking is round-robin — there are exactly `n` chunks, the
element at position `j` of chunk `i` is the input element at index
`i + j * n` (so chunks preserve relative input order), the input file at
index `i` sits in chunk `i % n` at position `i / n`, a worker count larger
than the list length leaves some chunk empty, and the empty list yields `n`
empty chunks. -/
theorem chunks_round_robin (l : List String) (n : Nat) (hn : 0 < n) :
    (pyChunks l n).length = n
    ∧ (∀ i j : Nat, (pySlice l i n)[j]? = l[i + j * n]?)
    ∧ (∀ i : Nat, (pyChunks l n)[i % n]? = some (pySlice l (i % n) n)
        ∧ (pySlice l (i % n) n)[i / n]? = l[i]?)
    ∧ (l.length < n → ∃ c ∈ pyChunks l n, c = [])
    ∧ pyChunks ([] : List String) n = List.replicate n [] := by
  refine ⟨pyChunks_length l n, fun i j => pySlice_getElem? l i hn j, ?_, ?_, ?_⟩
  · intro i
    refine ⟨pyChunks_getElem? l (Nat.mod_lt i hn), ?_⟩
    rw [pySlice_getElem? l (i % n) hn (i / n)]
    congr 1
    exact Nat.mod_add_div' i n
  · intro hlen
    refine ⟨pySlice l l.length n, ?_, ?_⟩
    · exact List.mem_map.mpr ⟨l.length, List.mem_range.mpr hlen, rfl⟩
    · unfold pySlice
      rw [List.drop_length]
      rfl
  · refine List.eq_replicate_iff.mpr ⟨by simp [pyChunks], ?_⟩
    intro b hb
    simp only [pyChunks, List.mem_map] at hb
    obtain ⟨i, _, rfl⟩ := hb
    exact pySlice_nil i n

/-- Witness for C4 at a concrete list. -/
theorem chunks_round_robin_witness :
    (pyChunks ["a", "b", "c"] 2).length = 2 :=
  (chunks_round_robin ["a", "b", "c"] 2 (by decide)).1

/-- Claim C5: scanning one readable file records, for each keyword of a
duplicate-free keyword list, the original-casing keyword as the key, mapped
to `[f]` exactly when the lowercased keyword is a substring of the
lowercased content and to `[]` otherwise. -/
theorem scan_reports_substring_matches (fsys : FileSystem) (f text : String)
    (ks : List String) (hread : fsys f = some text) (hnd : ks.Nodup) :
    ∀ k ∈ ks,
      List.lookup k (process_files_chunk fsys [f] ks)
        = some (if (pyLower k).data <:+: (pyLower text).data then [f] else []) := by
  intro k hk
  have h1 : process_files_chunk fsys [f] ks
      = bump (selContrib (pyLower text) f ks) (dictOfKeys ks) := by
    show scanChunk fsys ks [] (scanFile fsys ks (dictOfKeys ks) f) = _
    rw [scanFile_readable hread]
    rfl
  rw [h1, lookup_bump, lookup_dictOfKeys hk]
  show some ([] ++ selContrib (pyLower text) f ks k) = _
  rw [List.nil_append, selContrib_eq hnd hk]
  congr 1
  simp [substrB]

/-- Witness for C5 at a concrete file system. -/
theorem scan_reports_substring_matches_witness :
    List.lookup "Python"
        (process_files_chunk (fun p => if p = "a.txt" then some "Say PYTHON" else none)
          ["a.txt"] ["Python"])
      = some (if (pyLower "Python").data <:+: (pyLower "Say PYTHON").data
          then ["a.txt"] else []) :=
  scan_reports_substring_matches
    (fun p => if p = "a.txt" then some "Say PYTHON" else none)
    "a.txt" "Say PYTHON" ["Python"] rfl (by decide) "Python" (List.mem_cons_self _ _)

/-- Claim C6: a chunk containing an unreadable file is processed as if the
file were absent — scanning continues, the result equals the one for the
chunk without that file, and the unreadable file appears in no keyword's
match list. -/
theorem unreadable_file_skipped (fsys : FileSystem) (ks pre post : List String)
    (f : String) (hf : fsys f = none) :
    process_files_chunk fsys (pre ++ f :: post) ks
        = process_files_chunk fsys (pre ++ post) ks
    ∧ ∀ e ∈ process_files_chunk fsys (pre ++ f :: post) ks, ¬ f ∈ e.2 := by
  constructor
  · unfold process_files_chunk
    have h1 : scanChunk fsys ks (pre ++ [f]) (dictOfKeys ks)
        = scanChunk fsys ks pre (dictOfKeys ks) := by
      rw [scanChunk_append]
      exact scanFile_unreadable hf
    have hsplit : pre ++ f :: post = (pre ++ [f]) ++ post := by simp
    rw [hsplit, scanChunk_append, h1, ← scanChunk_append]
  · intro e he hmem
    have hx := vals_process_files_chunk e he f hmem
    rw [hf] at hx
    simp at hx

/-- Witness for C6 at a concrete file system with one readable and one
unreadable file. -/
theorem unreadable_file_skipped_witness :
    process_files_chunk (fun p => if p = "good.txt" then some "has k" else none)
        (["good.txt"] ++ "bad.txt" :: []) ["k"]
      = process_files_chunk (fun p => if p = "good.txt" then some "has k" else none)
        (["good.txt"] ++ []) ["k"] :=
  (unreadable_file_skipped (fun p => if p = "good.txt" then some "has k" else none)
    ["k"] ["good.txt"] [] "bad.txt" rfl).1

/-- Claim C7: `merge_results` is order-independent — permuting the published
dicts yields the same final dict. -/
theorem merge_results_perm_invariant (ks : List String) (ps ps' : List Dict) (d : Dict)
    (hperm : ps.Perm ps') (h : merge_results ps ks = .ok d) :
    merge_results ps' ks = .ok d := by
  have hcond : ∀ p ∈ ps, ∀ e ∈ p, e.1 ∈ ks := by
    by_contra hne
    push_neg at hne
    obtain ⟨err, herr⟩ := merge_results_error_exists hne
    rw [herr] at h
    exact Except.noConfusion h
  have hcond' : ∀ p ∈ ps', ∀ e ∈ p, e.1 ∈ ks :=
    fun p hp => hcond p (hperm.mem_iff.mpr hp)
  rw [merge_results_ok_char hcond'] at *
  rw [merge_results_ok_char hcond] at h
  rw [← h]
  congr 1
  apply List.map_congr_left
  intro e _
  rw [pySortedSet_perm_congr (contribAll_perm e.1 hperm)]

/-- Witness for C7 at a concrete pair of permuted publication orders. -/
theorem merge_results_perm_invariant_witness :
    merge_results [[("k", ["b"])], [("k", ["a"])]] ["k"] = .ok [("k", ["a", "b"])] :=
  merge_results_perm_invariant ["k"] [[("k", ["a"])], [("k", ["b"])]]
    [[("k", ["b"])], [("k", ["a"])]] [("k", ["a", "b"])]
    (List.Perm.swap [("k", ["b"])] [("k", ["a"])] []) rfl

/-- Claim C8 counterexample: a worker count of `0` (the `Nat` image of
`workerCount ≤ 0`) is not rejected — `run_analysis` returns a merged result
instead of raising, refuting the claim that every invalid configuration is
rejected at entry. -/
theorem run_analysis_invalid_config_cex :
    run_analysis (fun _ => none) [] ["k"] 0 "threading" = .ok [("k", [])] := rfl

/-- Claim C8 (amended): only an unknown concurrency mode is rejected at
entry; with a recognised mode `run_analysis` always returns a merged result,
also for worker count `0` and for an empty keyword list. -/
theorem run_analysis_mode_validation (fsys : FileSystem)
    (file_list keywords : List String) (num_workers : Nat) (mode : String) :
    (¬ mode = "threading" → ¬ mode = "multiprocessing" →
      run_analysis fsys file_list keywords num_workers mode
        = .error (.valueError ("Unknown mode: " ++ mode)))
    ∧ ((mode = "threading" ∨ mode = "multiprocessing") →
        ∃ d, run_analysis fsys file_list keywords num_workers mode = .ok d) := by
  constructor
  · intro h1 h2
    have hb : (mode == "threading" || mode == "multiprocessing") = false := by
      simp [beq_iff_eq, h1, h2]
    rw [run_analysis, hb, if_neg Bool.false_ne_true]
  · intro hmode
    have hb : (mode == "threading" || mode == "multiprocessing") = true := by
      rcases hmode with rfl | rfl <;> rfl
    rw [run_analysis, hb, if_pos rfl]
    exact ⟨_, merge_results_ok_char keys_workerResults⟩

/-- Witness for C8 (amended) at a concrete unknown mode. -/
theorem run_analysis_mode_validation_witness :
    run_analysis (fun _ => none) [] ["k"] 0 "bogus"
      = .error (.valueError ("Unknown mode: " ++ "bogus")) :=
  (run_analysis_mode_validation (fun _ => none) [] ["k"] 0 "bogus").1
    (by decide) (by decide)

/-- Claim C9: contrary to the claim, the drain-and-merge stage performs no
shortfall detection — with `num_workers = 2` and a single published dict it
returns a merged result instead of raising a hard failure. -/
theorem drain_merge_no_shortfall_check :
    List.length [[("k", ["a"])]] < 2
    ∧ drain_and_merge [[("k", ["a"])]] ["k"] = .ok [("k", ["a"])] :=
  ⟨by decide, rfl⟩

/-- Claim C10: `merge_results` succeeds exactly when every key of every
published dict belongs to the keyword list, and every failure is a
`KeyError` on a key outside the keyword list. -/
theorem merge_results_key_safety (ps : List Dict) (ks : List String) :
    ((merge_results ps ks).isOk = true ↔ ∀ p ∈ ps, ∀ e ∈ p, e.1 ∈ ks)
    ∧ (∀ err, merge_results ps ks = .error err → ∃ k, ¬ k ∈ ks ∧ err = .keyError k) := by
  constructor
  · constructor
    · intro hok
      by_contra hne
      push_neg at hne
      obtain ⟨err, herr⟩ := merge_results_error_exists hne
      rw [herr] at hok
      simp [Except.isOk, Except.toBool] at hok
    · intro hcond
      rw [merge_results_ok_char hcond]
      rfl
  · intro err herr
    exact merge_results_error_shape herr

/-- Witness for C10 at a concrete failing merge. -/
theorem merge_results_key_safety_witness :
    ∃ k, ¬ k ∈ ([] : List String) ∧ PyError.keyError "x" = .keyError k :=
  (merge_results_key_safety [[("x", ["a"])]] []).2 (.keyError "x") rfl

/-! ## Concrete sanity checks of the embedding -/

theorem sanity_chunks : pyChunks [10, 20, 30, 40, 50] 2 = [[10, 30, 50], [20, 40]] := by
  decide

theorem sanity_chunks_empty : pyChunks ([] : List Nat) 3 = [[], [], []] := by decide

theorem sanity_sorted_set : pySortedSet ["b", "a", "b"] = ["a", "b"] := by decide

theorem sanity_scan :
    process_files_chunk
      (fun f => if f = "a.txt" then some "Say PYTHON" else none)
      ["a.txt", "bad.txt"] ["Python", "java"]
      = [("Python", ["a.txt"]), ("java", [])] := by decide

theorem sanity_merge :
    merge_results [[("k", ["b"])], [("k", ["a"])]] ["k"] = .ok [("k", ["a", "b"])] := rfl

theorem sanity_run :
    run_analysis (fun f => if f = "a.txt" then some "Say PYTHON" else none)
      ["a.txt", "b.txt"] ["python"] 2 "threading" = .ok [("python", ["a.txt"])] := rfl
